import Mathlib

/-!
Verification of the klogg log-file indexing core against its specification.

The repository ships the interface headers of the indexing subsystem
(`logdataworker.h`) and of the recent-files list (`recentfiles.h`).  The
operation bodies are not part of the shipped sources, so every behavioural
definition below is modelled from the specification document, faithfully
following its words; the `Modelled from the spec:` doc comments mark those
definitions.  The model works at the byte level with the single-byte newline
terminator 0x0A (the spec's single-byte / UTF-8 case); line lengths are
measured in bytes, which coincides with code points for that case, and tab
expansion is not performed (the spec leaves it implementation-defined).
-/

/-- A byte of the indexed file, as a natural number below 256. -/
abbrev Byte := Nat

/-- The line terminator byte 0x0A scanned for by the block parser. -/
def newlineByte : Byte := 10

/-- Codec identifiers known to the model: the BOM-detectable Unicode
encodings plus the system default returned when no BOM is found. -/
inductive Codec where
  | utf8
  | utf16le
  | utf16be
  | utf32le
  | utf32be
  | systemDefault
deriving DecidableEq

/-- Modelled from the spec: BOM detection of the encoding detector.
Returns the codec whose byte-order mark starts the block, if any. -/
def bomCodec (l : List Byte) : Option Codec :=
  if l.take 4 = [255, 254, 0, 0] then some .utf32le
  else if l.take 4 = [0, 0, 254, 255] then some .utf32be
  else if l.take 2 = [255, 254] then some .utf16le
  else if l.take 2 = [254, 255] then some .utf16be
  else if l.take 3 = [239, 187, 191] then some .utf8
  else none

/-- Modelled from the spec: the encoding detector.  BOM detection first,
then the statistical stage; the statistical guess is modelled as never
confident, so a block without a BOM yields the system default. -/
def guessEncoding (block : List Byte) : Codec :=
  (bomCodec block).getD .systemDefault

/-- The `IndexedHash` pair of `logdataworker.h`: size-in-bytes-hashed and
digest.  The MD5 digest is modelled as the hashed byte sequence itself
(an injective fingerprint; only digest equality is ever consumed). -/
structure IndexedHash where
  size : Nat
  hash : List Byte
deriving DecidableEq

/-- Modelled from the spec: the prefix bound K on the number of bytes
fed to the identity-fingerprint hash (256 KiB). -/
def hashBound : Nat := 256 * 1024

/-- The `IndexingData` aggregate of `logdataworker.h`: line-position
array, max line length, indexed hash, guessed and forced encodings.
The mutex is not modelled; operations are applied sequentially. -/
structure IndexingData where
  linePosition : List Nat
  maxLength : Nat
  hashSize : Nat
  hashDigest : List Byte
  encodingGuess : Option Codec
  encodingForced : Option Codec
deriving DecidableEq

/-- Modelled from the spec: `IndexingData::clear` resets every field and
re-initializes the hash. -/
def clearData : IndexingData :=
  { linePosition := []
    maxLength := 0
    hashSize := 0
    hashDigest := []
    encodingGuess := none
    encodingForced := none }

/-- Modelled from the spec: `getSize` returns the total indexed byte
size, which equals the last offset in the line-position array or zero
when it is empty. -/
def getSize (d : IndexingData) : Nat :=
  d.linePosition.getLastD 0

/-- `getNbLines` of `IndexingData`: the number of indexed lines. -/
def getNbLines (d : IndexingData) : Nat :=
  d.linePosition.length

/-- `getPosForLine` of `IndexingData`: the byte offset one past the end
of the given line. -/
def getPosForLine (d : IndexingData) (line : Nat) : Nat :=
  d.linePosition.getD line 0

/-- `getMaxLength` of `IndexingData`. -/
def getMaxLength (d : IndexingData) : Nat :=
  d.maxLength

/-- `getHash` of `IndexingData`. -/
def getHash (d : IndexingData) : IndexedHash :=
  { size := d.hashSize, hash := d.hashDigest }

/-- `getEncodingGuess` of `IndexingData`. -/
def getEncodingGuess (d : IndexingData) : Option Codec :=
  d.encodingGuess

/-- `getForcedEncoding` of `IndexingData`. -/
def getForcedEncoding (d : IndexingData) : Option Codec :=
  d.encodingForced

/-- `forceEncoding` of `IndexingData`: stores a codec overriding the
guess for presentation; does not touch the index. -/
def forceEncoding (d : IndexingData) (c : Codec) : IndexingData :=
  { d with encodingForced := some c }

/-- `setEncodingGuess` of `IndexingData`. -/
def setEncodingGuess (d : IndexingData) (c : Codec) : IndexingData :=
  { d with encodingGuess := some c }

/-- Modelled from the spec: `IndexingData::addAll` appends the block's
line offsets, extends the hash with the block's bytes only while the
hashed size is below the bound (truncating the final chunk), folds the
max length, and installs a non-null caller codec as the guess. -/
def addAll (d : IndexingData) (block : List Byte) (length : Nat)
    (linePosition : List Nat) (encoding : Option Codec) : IndexingData :=
  let chunk := block.take (hashBound - d.hashSize)
  { linePosition := d.linePosition ++ linePosition
    maxLength := max d.maxLength length
    hashSize := d.hashSize + chunk.length
    hashDigest := d.hashDigest ++ chunk
    encodingGuess := if encoding.isSome then encoding else d.encodingGuess
    encodingForced := d.encodingForced }

/-- The carry part of `IndexingState` used by the block parser: running
max line length and the code-point count of the current unterminated
line. -/
structure ParseState where
  maxLength : Nat
  carryLen : Nat
deriving DecidableEq

/-- Modelled from the spec: `IndexOperation::parseDataBlock` scans a
block for the newline terminator, emitting for each terminator at byte
position p the offset p + 1, folding each terminated line's length into
the running max and carrying the partial-line count across blocks. -/
def parseBlock : List Byte → Nat → ParseState → List Nat × ParseState
  | [], _, st => ([], st)
  | b :: r, pos, st =>
    if b = newlineByte then
      let res := parseBlock r (pos + 1) ⟨max st.maxLength st.carryLen, 0⟩
      ((pos + 1) :: res.1, res.2)
    else
      parseBlock r (pos + 1) ⟨st.maxLength, st.carryLen + 1⟩

/-- Offsets one past each newline byte of a byte sequence starting at a
given file position: the reference line index of a stretch of bytes. -/
def lineEnds : List Byte → Nat → List Nat
  | [], _ => []
  | b :: r, pos =>
    if b = newlineByte then (pos + 1) :: lineEnds r (pos + 1)
    else lineEnds r (pos + 1)

/-- Greatest length of a line terminated inside the byte sequence, the
first line being credited with `carry` bytes from the previous block;
zero when no line terminates inside it. -/
def maxTermLen : List Byte → Nat → Nat
  | [], _ => 0
  | b :: r, carry =>
    if b = newlineByte then max carry (maxTermLen r 0)
    else maxTermLen r (carry + 1)

/-- Length of the unterminated tail of the byte sequence, continuing a
partial line of `carry` bytes. -/
def tailRunLen : List Byte → Nat → Nat
  | [], carry => carry
  | b :: r, carry =>
    if b = newlineByte then tailRunLen r 0
    else tailRunLen r (carry + 1)

/-- Observation of the interrupt flag at the loop's check number i:
`some k` means the flag becomes set at check k and stays set. -/
def flagSet : Option Nat → Nat → Bool
  | none, _ => false
  | some k, i => Nat.ble k i

/-- Modelled from the spec: the block-reading loop shared by the index
operations.  Reads blocks of `bs` bytes from the unread remainder,
parses each, folds it into the store via `addAll`, and checks the
interrupt flag between blocks; returns false when interrupted.  The
fuel argument makes the recursion structural; callers pass more fuel
than there are bytes left, so it never runs out. -/
def doIndexLoop (bs : Nat) (ia : Option Nat) (enc : Codec) :
    Nat → Nat → ParseState → Nat → List Byte → IndexingData → Bool × IndexingData
  | 0, _, _, _, _, d => (true, d)
  | fuel + 1, i, st, pos, rest, d =>
    if flagSet ia i then (false, d)
    else
      match rest with
      | [] => (true, d)
      | b :: r =>
        let block := (b :: r).take bs
        let parsed := parseBlock block pos st
        let d1 := addAll d block parsed.2.maxLength parsed.1 (some enc)
        doIndexLoop bs ia enc fuel (i + 1) parsed.2 (pos + block.length)
          ((b :: r).drop bs) d1

/-- Modelled from the spec: `IndexOperation::doIndex` seeks to the
initial position and runs the block loop over the rest of the file. -/
def doIndex (bs : Nat) (ia : Option Nat) (enc : Codec) (file : List Byte)
    (initialPosition : Nat) (d : IndexingData) : Bool × IndexingData :=
  let rest := file.drop initialPosition
  doIndexLoop bs ia enc (rest.length + 1) 0 ⟨0, 0⟩ initialPosition rest d

/-- `MonitoredFileStatus` of the source. -/
inductive MonitoredFileStatus where
  | DataAdded
  | Truncated
  | Unchanged
deriving DecidableEq

/-- `OperationResult` of the source: a boolean completion flag for the
indexing operations or a file status for the check operation. -/
inductive OperationResult where
  | completed (b : Bool)
  | fileStatus (s : MonitoredFileStatus)
deriving DecidableEq

/-- Modelled from the spec: `FullIndexOperation::start` clears the
indexing data, installs the forced encoding or runs the detector on the
first block, indexes from position zero and reports completion. -/
def fullIndexOp (bs : Nat) (ia : Option Nat) (file : List Byte)
    (forced : Option Codec) (d : IndexingData) : OperationResult × IndexingData :=
  let det := guessEncoding (file.take bs)
  let enc := forced.getD det
  let d1 : IndexingData :=
    { clearData with encodingGuess := some det, encodingForced := forced }
  let r := doIndex bs ia enc file 0 d1
  (.completed r.1, r.2)

/-- The codec a partial index measures with: the stored guess when one
exists, otherwise the detector run on the first block it reads. -/
def partialEnc (bs : Nat) (file : List Byte) (d : IndexingData) : Codec :=
  d.encodingGuess.getD (guessEncoding ((file.drop (getSize d)).take bs))

/-- Modelled from the spec: `PartialIndexOperation::start` snapshots the
file size, returns Truncated when it shrank below the indexed size,
Unchanged when equal, and otherwise indexes from the indexed size. -/
def partialIndexOp (bs : Nat) (ia : Option Nat) (file : List Byte)
    (d : IndexingData) : OperationResult × IndexingData :=
  if file.length < getSize d then (.fileStatus .Truncated, d)
  else if file.length = getSize d then (.fileStatus .Unchanged, d)
  else
    let r := doIndex bs ia (partialEnc bs file d) file (getSize d) d
    (.completed r.1, r.2)

/-- The MD5 fingerprint of a byte sequence, modelled as the sequence
itself; only equality of digests is consumed by the model. -/
def md5Digest (bytes : List Byte) : List Byte :=
  bytes

/-- Modelled from the spec: `CheckFileChangesOperation::start` compares
the file's current size and the hash of its already-hashed prefix
against the stored indexing data, without mutating it. -/
def checkFileChangesOp (file : List Byte) (d : IndexingData) :
    OperationResult × IndexingData :=
  ( .fileStatus
      (if file.length < getSize d ∨ md5Digest (file.take d.hashSize) ≠ d.hashDigest then
        .Truncated
      else if getSize d < file.length then .DataAdded
      else .Unchanged)
  , d )

/-- Modelled from the spec: the file source seen by `attachFile`; a
nonexistent path reads as an empty file rather than an error. -/
def readFileBytes (fileSystem : String → Option (List Byte)) (path : String) : List Byte :=
  (fileSystem path).getD []

/-- The (line_start, line_end) pairs computed from the line index: the
end is the stored offset, the start is the previous entry's value or
zero for line 0. -/
def indexedPairs (d : IndexingData) : List (Nat × Nat) :=
  (List.range (getNbLines d)).map fun i =>
    (if i = 0 then 0 else getPosForLine d (i - 1), getPosForLine d i)

/-- Pairs (previous end, end) down a list of line-end offsets. -/
def pairsFrom (start : Nat) : List Nat → List (Nat × Nat)
  | [] => []
  | e :: es => (start, e) :: pairsFrom e es

/-- Follows the spec's words: the naive newline-split of a file's bytes,
scanning from a position with a pending line start. -/
def naiveSplitGo (pos start : Nat) : List Byte → List (Nat × Nat)
  | [] => []
  | b :: r =>
    if b = newlineByte then (start, pos + 1) :: naiveSplitGo (pos + 1) (pos + 1) r
    else naiveSplitGo (pos + 1) start r

/-- Follows the spec's words: the (line_start, line_end) pairs of the
naive newline-split of the whole file. -/
def naiveSplitPairs (file : List Byte) : List (Nat × Nat) :=
  naiveSplitGo 0 0 file

/-- One recorded `addAll` call: the arguments passed to the store. -/
structure AddAllCall where
  block : List Byte
  length : Nat
  linePosition : List Nat
  encoding : Option Codec

/-- Replay a sequence of `addAll` calls against a store state. -/
def applyCalls (d : IndexingData) (calls : List AddAllCall) : IndexingData :=
  calls.foldl (fun d c => addAll d c.block c.length c.linePosition c.encoding) d

/-- States reachable through the store's operations from the empty
store, `addAll` respecting the documented precondition that offsets are
appended non-decreasing and no earlier than the current end. -/
inductive Reachable : IndexingData → Prop
  | init : Reachable clearData
  | add (d : IndexingData) (block : List Byte) (length : Nat) (lp : List Nat)
      (enc : Option Codec) : Reachable d →
      List.Chain' (fun a b => a ≤ b) lp →
      getSize d ≤ lp.headD (getSize d) →
      Reachable (addAll d block length lp enc)
  | force (d : IndexingData) (c : Codec) : Reachable d → Reachable (forceEncoding d c)
  | setGuess (d : IndexingData) (c : Codec) : Reachable d →
      Reachable (setEncodingGuess d c)

/-- `MAX_NUMBER_OF_FILES` of `recentfiles.h`. -/
def MAX_NUMBER_OF_FILES : Nat := 10

/-- Modelled from the spec: `RecentFiles::addRecent`, whose body is not
in the shipped sources; per the header comments it moves the passed
name to the front of the list (latest first) and keeps at most
`MAX_NUMBER_OF_FILES` entries. -/
def addRecent (recentFiles : List String) (text : String) : List String :=
  (text :: recentFiles.filter (fun f => !(f == text))).take MAX_NUMBER_OF_FILES

/-! ## Helper lemmas about the block parser -/

theorem parseBlock_fst (l : List Byte) :
    ∀ pos st, (parseBlock l pos st).1 = lineEnds l pos := by
  induction l with
  | nil => intro pos st; rfl
  | cons b r ih =>
    intro pos st
    by_cases hb : b = newlineByte
    · simp [parseBlock, lineEnds, hb, ih]
    · simp [parseBlock, lineEnds, hb, ih]

theorem parseBlock_snd (l : List Byte) :
    ∀ pos st, (parseBlock l pos st).2 =
      ⟨max st.maxLength (maxTermLen l st.carryLen), tailRunLen l st.carryLen⟩ := by
  induction l with
  | nil => intro pos st; simp [parseBlock, maxTermLen, tailRunLen]
  | cons b r ih =>
    intro pos st
    by_cases hb : b = newlineByte
    · simp [parseBlock, maxTermLen, tailRunLen, hb, ih, Nat.max_assoc]
    · simp [parseBlock, maxTermLen, tailRunLen, hb, ih]

theorem lineEnds_append (a b : List Byte) :
    ∀ pos, lineEnds (a ++ b) pos = lineEnds a pos ++ lineEnds b (pos + a.length) := by
  induction a with
  | nil => intro pos; simp [lineEnds]
  | cons x r ih =>
    intro pos
    by_cases hx : x = newlineByte
    · simp [lineEnds, hx, ih, Nat.add_assoc, Nat.add_comm 1]
    · simp [lineEnds, hx, ih, Nat.add_assoc, Nat.add_comm 1]

theorem maxTermLen_append (a b : List Byte) :
    ∀ c, maxTermLen (a ++ b) c = max (maxTermLen a c) (maxTermLen b (tailRunLen a c)) := by
  induction a with
  | nil => intro c; simp [maxTermLen, tailRunLen]
  | cons x r ih =>
    intro c
    by_cases hx : x = newlineByte
    · simp [maxTermLen, tailRunLen, hx, ih, Nat.max_assoc]
    · simp [maxTermLen, tailRunLen, hx, ih]

theorem tailRunLen_append (a b : List Byte) :
    ∀ c, tailRunLen (a ++ b) c = tailRunLen b (tailRunLen a c) := by
  induction a with
  | nil => intro c; simp [tailRunLen]
  | cons x r ih =>
    intro c
    by_cases hx : x = newlineByte
    · simp [tailRunLen, hx, ih]
    · simp [tailRunLen, hx, ih]

/-! ## Helper lemmas about the hashed prefix -/

theorem take_chunk_cascade (K s : Nat) (a t : List Byte) :
    a.take (K - s) ++ t.take (K - (s + (a.take (K - s)).length)) = (a ++ t).take (K - s) := by
  rw [List.take_append_eq_append_take]
  congr 1
  congr 1
  simp [List.length_take]
  omega

/-! ## Characterization of the block-reading loop -/

theorem doIndexLoop_zero (bs : Nat) (ia : Option Nat) (enc : Codec) (i : Nat)
    (st : ParseState) (pos : Nat) (rest : List Byte) (d : IndexingData) :
    doIndexLoop bs ia enc 0 i st pos rest d = (true, d) := rfl

theorem doIndexLoop_nil (bs : Nat) (ia : Option Nat) (enc : Codec) (n i : Nat)
    (st : ParseState) (pos : Nat) (d : IndexingData) :
    doIndexLoop bs ia enc (n + 1) i st pos [] d =
      if flagSet ia i then (false, d) else (true, d) := rfl

theorem doIndexLoop_cons (bs : Nat) (ia : Option Nat) (enc : Codec) (n i : Nat)
    (st : ParseState) (pos : Nat) (b : Byte) (r : List Byte) (d : IndexingData) :
    doIndexLoop bs ia enc (n + 1) i st pos (b :: r) d =
      if flagSet ia i then (false, d)
      else
        doIndexLoop bs ia enc n (i + 1) (parseBlock ((b :: r).take bs) pos st).2
          (pos + ((b :: r).take bs).length) ((b :: r).drop bs)
          (addAll d ((b :: r).take bs) (parseBlock ((b :: r).take bs) pos st).2.maxLength
            (parseBlock ((b :: r).take bs) pos st).1 (some enc)) := rfl

theorem doIndexLoop_none_fst (bs : Nat) (enc : Codec) :
    ∀ fuel i st pos rest d, (doIndexLoop bs none enc fuel i st pos rest d).1 = true := by
  intro fuel
  induction fuel with
  | zero => intro i st pos rest d; rfl
  | succ n ih =>
    intro i st pos rest d
    cases rest with
    | nil => simp [doIndexLoop_nil, flagSet]
    | cons b r =>
      rw [doIndexLoop_cons]
      simp only [flagSet, Bool.false_eq_true, if_false]
      exact ih _ _ _ _ _

theorem doIndexLoop_none_spec (bs : Nat) (hb : 0 < bs) (enc : Codec) :
    ∀ fuel rest i st pos d, rest.length < fuel → st.maxLength ≤ d.maxLength →
      doIndexLoop bs none enc fuel i st pos rest d =
        (true,
          { linePosition := d.linePosition ++ lineEnds rest pos
            maxLength := max d.maxLength (maxTermLen rest st.carryLen)
            hashSize := d.hashSize + (rest.take (hashBound - d.hashSize)).length
            hashDigest := d.hashDigest ++ rest.take (hashBound - d.hashSize)
            encodingGuess := if rest.isEmpty then d.encodingGuess else some enc
            encodingForced := d.encodingForced }) := by
  intro fuel
  induction fuel with
  | zero => intro rest i st pos d hlen hmax; omega
  | succ n ih =>
    intro rest i st pos d hlen hmax
    cases rest with
    | nil =>
      simp [doIndexLoop_nil, flagSet, lineEnds, maxTermLen]
    | cons b r =>
      rw [doIndexLoop_cons]
      simp only [flagSet, Bool.false_eq_true, if_false]
      have hlen1 : ((b :: r).drop bs).length < n := by
        simp only [List.length_drop]
        simp only [List.length_cons] at hlen ⊢
        omega
      have hmax1 :
          (parseBlock ((b :: r).take bs) pos st).2.maxLength ≤
            (addAll d ((b :: r).take bs) (parseBlock ((b :: r).take bs) pos st).2.maxLength
              (parseBlock ((b :: r).take bs) pos st).1 (some enc)).maxLength := by
        simp [addAll]
      rw [ih _ _ _ _ _ hlen1 hmax1]
      have hsplit : (b :: r).take bs ++ (b :: r).drop bs = b :: r :=
        List.take_append_drop bs (b :: r)
      have hdig := take_chunk_cascade hashBound d.hashSize ((b :: r).take bs) ((b :: r).drop bs)
      rw [hsplit] at hdig
      refine Prod.ext rfl ?_
      simp only [addAll, parseBlock_fst, parseBlock_snd]
      simp only [IndexingData.mk.injEq]
      refine ⟨?_, ?_, ?_, ?_, ?_, trivial⟩
      · rw [List.append_assoc, ← lineEnds_append, hsplit]
      · conv_rhs => rw [← hsplit, maxTermLen_append]
        omega
      · have hlen2 := congrArg List.length hdig
        simp only [List.length_append] at hlen2
        omega
      · rw [List.append_assoc, hdig]
      · simp [List.isEmpty_cons]

theorem doIndex_none_spec (bs : Nat) (hb : 0 < bs) (enc : Codec) (file : List Byte)
    (p : Nat) (d : IndexingData) :
    doIndex bs none enc file p d =
      (true,
        { linePosition := d.linePosition ++ lineEnds (file.drop p) p
          maxLength := max d.maxLength (maxTermLen (file.drop p) 0)
          hashSize := d.hashSize + ((file.drop p).take (hashBound - d.hashSize)).length
          hashDigest := d.hashDigest ++ (file.drop p).take (hashBound - d.hashSize)
          encodingGuess := if (file.drop p).isEmpty then d.encodingGuess else some enc
          encodingForced := d.encodingForced }) := by
  unfold doIndex
  exact doIndexLoop_none_spec bs hb enc _ _ _ _ _ _ (Nat.lt_succ_self _) (Nat.zero_le _)

theorem fullIndexOp_none_spec (bs : Nat) (hb : 0 < bs) (file : List Byte)
    (d : IndexingData) :
    fullIndexOp bs none file none d =
      (.completed true,
        { linePosition := lineEnds file 0
          maxLength := maxTermLen file 0
          hashSize := (file.take hashBound).length
          hashDigest := file.take hashBound
          encodingGuess := some (guessEncoding (file.take bs))
          encodingForced := none }) := by
  simp only [fullIndexOp, Option.getD_none]
  rw [doIndex_none_spec bs hb]
  simp only [List.drop_zero, clearData]
  cases file with
  | nil => simp
  | cons x xs => simp

/-! ## Helper lemmas about line-end offsets and accessors -/

theorem getLastD_eq_getD_pred (l : List Nat) : l.getLastD 0 = l.getD (l.length - 1) 0 := by
  simp [List.getLastD_eq_getLast?, List.getLast?_eq_getElem?, List.getD_eq_getElem?_getD]

theorem lineEnds_getLast (l : List Byte) (pos : Nat) (h : l.getLast? = some newlineByte) :
    (lineEnds l pos).getLast? = some (pos + l.length) := by
  obtain ⟨ys, rfl⟩ := List.getLast?_eq_some_iff.mp h
  simp [lineEnds_append, lineEnds, List.getLast?_concat, Nat.add_assoc]

theorem tailRunLen_zero_of_last_newline (l : List Byte) (c : Nat)
    (h : l.getLast? = some newlineByte) : tailRunLen l c = 0 := by
  obtain ⟨ys, rfl⟩ := List.getLast?_eq_some_iff.mp h
  rw [tailRunLen_append]
  simp [tailRunLen]

/-! ## Stability of the encoding detector under appends past a newline -/

theorem take_eq_pattern_iff (F T p : List Byte) (k : Nat) (hk : p.length = k)
    (hmem : newlineByte ∉ p) (h : F.getLast? = some newlineByte) :
    (F ++ T).take k = p ↔ F.take k = p := by
  rcases Nat.le_total k F.length with hle | hge
  · rw [List.take_append_of_le_length hle]
  · obtain ⟨ys, rfl⟩ := List.getLast?_eq_some_iff.mp h
    constructor
    · intro he
      exfalso
      apply hmem
      rw [List.take_append_eq_append_take, List.take_of_length_le hge] at he
      rw [← he]
      simp
    · intro he
      exfalso
      apply hmem
      rw [List.take_of_length_le hge] at he
      rw [← he]
      simp

theorem bomCodec_append (F T : List Byte) (h : F.getLast? = some newlineByte) :
    bomCodec (F ++ T) = bomCodec F := by
  have e1 := take_eq_pattern_iff F T [255, 254, 0, 0] 4 rfl (by decide) h
  have e2 := take_eq_pattern_iff F T [0, 0, 254, 255] 4 rfl (by decide) h
  have e3 := take_eq_pattern_iff F T [255, 254] 2 rfl (by decide) h
  have e4 := take_eq_pattern_iff F T [254, 255] 2 rfl (by decide) h
  have e5 := take_eq_pattern_iff F T [239, 187, 191] 3 rfl (by decide) h
  simp only [bomCodec, e1, e2, e3, e4, e5]

theorem guessEncoding_append (F T : List Byte) (h : F.getLast? = some newlineByte) :
    guessEncoding (F ++ T) = guessEncoding F := by
  unfold guessEncoding
  rw [bomCodec_append F T h]

theorem guessEncoding_take_stable (bs : Nat) (F T : List Byte)
    (h : F.getLast? = some newlineByte) :
    guessEncoding ((F ++ T).take bs) = guessEncoding (F.take bs) := by
  rcases Nat.le_total bs F.length with hle | hge
  · rw [List.take_append_of_le_length hle]
  · rw [List.take_of_length_le hge, List.take_append_eq_append_take,
      List.take_of_length_le hge]
    exact guessEncoding_append F _ h

/-! ## From the line index to (start, end) pairs -/

theorem range_map_pairs (l : List Nat) :
    ∀ prev, (List.range l.length).map
        (fun i => (if i = 0 then prev else l.getD (i - 1) 0, l.getD i 0)) =
      pairsFrom prev l := by
  induction l with
  | nil => intro prev; simp [pairsFrom]
  | cons x xs ih =>
    intro prev
    rw [List.length_cons, List.range_succ_eq_map, List.map_cons, List.map_map]
    have hmap : (List.range xs.length).map
        ((fun i => (if i = 0 then prev else (x :: xs).getD (i - 1) 0, (x :: xs).getD i 0)) ∘
          Nat.succ) =
        (List.range xs.length).map
          (fun i => (if i = 0 then x else xs.getD (i - 1) 0, xs.getD i 0)) := by
      apply List.map_congr_left
      intro i hi
      cases i with
      | zero => simp
      | succ j => simp
    rw [hmap, ih x]
    simp [pairsFrom]

theorem naiveSplitGo_eq (l : List Byte) :
    ∀ pos start, naiveSplitGo pos start l = pairsFrom start (lineEnds l pos) := by
  induction l with
  | nil => intro pos start; simp [naiveSplitGo, lineEnds, pairsFrom]
  | cons b r ih =>
    intro pos start
    by_cases hb : b = newlineByte
    · simp [naiveSplitGo, lineEnds, pairsFrom, hb, ih]
    · simp [naiveSplitGo, lineEnds, hb, ih]

theorem indexedPairs_eq (d : IndexingData) : indexedPairs d = pairsFrom 0 d.linePosition := by
  unfold indexedPairs getNbLines getPosForLine
  exact range_map_pairs d.linePosition 0

/-! ## Claim theorems -/

/-- C1: for every file and positive block size, the (line_start, line_end)
pairs computed from the line index built by a full index of the file equal
the naive newline-split of the file's bytes, each stored offset being one
past the terminating newline and a line's start being the previous entry's
value or zero for line 0. -/
theorem full_index_pairs_eq_naive_split (bs : Nat) (hb : 0 < bs) (file : List Byte)
    (d : IndexingData) :
    indexedPairs (fullIndexOp bs none file none d).2 = naiveSplitPairs file := by
  rw [fullIndexOp_none_spec bs hb, indexedPairs_eq]
  show pairsFrom 0 (lineEnds file 0) = naiveSplitPairs file
  rw [naiveSplitPairs, naiveSplitGo_eq]

theorem full_index_pairs_eq_naive_split_witness :
    0 < 3 ∧
    indexedPairs (fullIndexOp 3 none [97, 10, 98, 98, 10, 99, 99, 99, 10] none clearData).2 =
      naiveSplitPairs [97, 10, 98, 98, 10, 99, 99, 99, 10] :=
  ⟨by decide,
    full_index_pairs_eq_naive_split 3 (by decide) [97, 10, 98, 98, 10, 99, 99, 99, 10]
      clearData⟩

/-- C2: the check-file-changes operation returns Truncated when the file's
current size is below the stored size or the prefix hash differs, DataAdded
when the size grew and the prefix matches, and Unchanged when the size is
equal and the prefix matches. -/
theorem check_file_changes_status (file : List Byte) (d : IndexingData) :
    (file.length < getSize d ∨ md5Digest (file.take d.hashSize) ≠ d.hashDigest →
      (checkFileChangesOp file d).1 = .fileStatus .Truncated) ∧
    (getSize d < file.length ∧ md5Digest (file.take d.hashSize) = d.hashDigest →
      (checkFileChangesOp file d).1 = .fileStatus .DataAdded) ∧
    (file.length = getSize d ∧ md5Digest (file.take d.hashSize) = d.hashDigest →
      (checkFileChangesOp file d).1 = .fileStatus .Unchanged) := by
  have hres : (checkFileChangesOp file d).1 =
      (if file.length < getSize d ∨ md5Digest (file.take d.hashSize) ≠ d.hashDigest then
        OperationResult.fileStatus .Truncated
      else if getSize d < file.length then OperationResult.fileStatus .DataAdded
      else OperationResult.fileStatus .Unchanged) := by
    unfold checkFileChangesOp
    split_ifs <;> rfl
  refine ⟨fun h => ?_, fun h => ?_, fun h => ?_⟩
  · rw [hres, if_pos h]
  · have hc1 : ¬(file.length < getSize d ∨ md5Digest (file.take d.hashSize) ≠ d.hashDigest) := by
      push_neg
      exact ⟨by omega, h.2⟩
    rw [hres, if_neg hc1, if_pos h.1]
  · have hc1 : ¬(file.length < getSize d ∨ md5Digest (file.take d.hashSize) ≠ d.hashDigest) := by
      push_neg
      exact ⟨by omega, h.2⟩
    rw [hres, if_neg hc1, if_neg (by omega)]

theorem check_file_changes_status_witness :
    (List.length ([] : List Byte) < getSize (addAll clearData [97, 10] 1 [2] none) ∨
      md5Digest (List.take (addAll clearData [97, 10] 1 [2] none).hashSize []) ≠
        (addAll clearData [97, 10] 1 [2] none).hashDigest) ∧
    (checkFileChangesOp [] (addAll clearData [97, 10] 1 [2] none)).1 =
      .fileStatus .Truncated :=
  ⟨Or.inl (by decide),
    (check_file_changes_status [] (addAll clearData [97, 10] 1 [2] none)).1
      (Or.inl (by decide))⟩

/-- C3: the partial index operation returns Truncated without indexing when
the snapshotted file size is below the indexed size, Unchanged when equal,
and otherwise runs doIndex from the indexed size, reporting true on
completion and false on interrupt. -/
theorem partial_index_start_spec (bs : Nat) (ia : Option Nat) (file : List Byte)
    (d : IndexingData) :
    (file.length < getSize d → partialIndexOp bs ia file d = (.fileStatus .Truncated, d)) ∧
    (file.length = getSize d → partialIndexOp bs ia file d = (.fileStatus .Unchanged, d)) ∧
    (getSize d < file.length →
      partialIndexOp bs ia file d =
        (.completed (doIndex bs ia (partialEnc bs file d) file (getSize d) d).1,
          (doIndex bs ia (partialEnc bs file d) file (getSize d) d).2) ∧
      (ia = none → (doIndex bs ia (partialEnc bs file d) file (getSize d) d).1 = true) ∧
      (ia = some 0 → (doIndex bs ia (partialEnc bs file d) file (getSize d) d).1 = false)) := by
  refine ⟨fun h => ?_, fun h => ?_, fun h => ⟨?_, fun hia => ?_, fun hia => ?_⟩⟩
  · unfold partialIndexOp
    rw [if_pos h]
  · unfold partialIndexOp
    rw [if_neg (by omega), if_pos h]
  · unfold partialIndexOp
    rw [if_neg (by omega), if_neg (by omega)]
  · subst hia
    unfold doIndex
    exact doIndexLoop_none_fst bs _ _ _ _ _ _ _
  · subst hia
    unfold doIndex
    cases hrest : file.drop (getSize d) with
    | nil => simp [doIndexLoop_nil, flagSet]
    | cons b r => simp [doIndexLoop_cons, flagSet]

theorem partial_index_start_spec_witness :
    List.length ([] : List Byte) < getSize (addAll clearData [97, 10] 1 [2] none) ∧
    partialIndexOp 2 none [] (addAll clearData [97, 10] 1 [2] none) =
      (.fileStatus .Truncated, addAll clearData [97, 10] 1 [2] none) :=
  ⟨by decide,
    (partial_index_start_spec 2 none [] (addAll clearData [97, 10] 1 [2] none)).1
      (by decide)⟩

theorem applyCalls_hash (calls : List AddAllCall) :
    ∀ d : IndexingData,
      (applyCalls d calls).hashDigest =
        d.hashDigest ++ ((calls.map fun c => c.block).flatten).take (hashBound - d.hashSize) ∧
      (applyCalls d calls).hashSize =
        d.hashSize +
          (((calls.map fun c => c.block).flatten).take (hashBound - d.hashSize)).length := by
  induction calls with
  | nil => intro d; simp [applyCalls]
  | cons c cs ih =>
    intro d
    have hstep : applyCalls d (c :: cs) =
        applyCalls (addAll d c.block c.length c.linePosition c.encoding) cs := rfl
    obtain ⟨ih1, ih2⟩ := ih (addAll d c.block c.length c.linePosition c.encoding)
    have hcasc :=
      take_chunk_cascade hashBound d.hashSize c.block ((cs.map fun c => c.block).flatten)
    have hlen := congrArg List.length hcasc
    simp only [List.length_append] at hlen
    have hsz : (addAll d c.block c.length c.linePosition c.encoding).hashSize =
        d.hashSize + (c.block.take (hashBound - d.hashSize)).length := rfl
    have hdg : (addAll d c.block c.length c.linePosition c.encoding).hashDigest =
        d.hashDigest ++ c.block.take (hashBound - d.hashSize) := rfl
    constructor
    · rw [hstep, ih1, hdg, hsz, List.map_cons, List.flatten_cons, List.append_assoc, hcasc]
    · rw [hstep, ih2, hsz, List.map_cons, List.flatten_cons]
      omega

/-- C4: over any sequence of addAll calls from a cleared store, the hash is
extended with block bytes only while below the prefix bound (the digest is
the bound-truncated concatenation of all blocks) and the hashed size equals
min(total indexed size, bound). -/
theorem addAll_hash_prefix_bound (calls : List AddAllCall) :
    (applyCalls clearData calls).hashDigest =
      ((calls.map fun c => c.block).flatten).take hashBound ∧
    (getHash (applyCalls clearData calls)).size =
      min ((calls.map fun c => c.block).flatten).length hashBound := by
  obtain ⟨h1, h2⟩ := applyCalls_hash calls clearData
  constructor
  · simpa [clearData] using h1
  · show (applyCalls clearData calls).hashSize = _
    rw [h2]
    simp [clearData, List.length_take, Nat.min_comm]

/-- C5: after any addAll call, the total indexed size equals the position of
the last line whenever lines exist, and is zero when the line-position
array is empty. -/
theorem addAll_size_last_offset (d : IndexingData) (block : List Byte) (len : Nat)
    (lp : List Nat) (enc : Option Codec) :
    (0 < getNbLines (addAll d block len lp enc) →
      getSize (addAll d block len lp enc) =
        getPosForLine (addAll d block len lp enc)
          (getNbLines (addAll d block len lp enc) - 1)) ∧
    (getNbLines (addAll d block len lp enc) = 0 →
      getSize (addAll d block len lp enc) = 0) := by
  constructor
  · intro h
    unfold getSize getPosForLine getNbLines
    exact getLastD_eq_getD_pred _
  · intro h
    unfold getNbLines at h
    unfold getSize
    rw [List.length_eq_zero.mp h]
    rfl

theorem addAll_size_last_offset_witness :
    0 < getNbLines (addAll clearData [97, 10] 1 [2] none) ∧
    getSize (addAll clearData [97, 10] 1 [2] none) =
      getPosForLine (addAll clearData [97, 10] 1 [2] none)
        (getNbLines (addAll clearData [97, 10] 1 [2] none) - 1) :=
  ⟨by decide, (addAll_size_last_offset clearData [97, 10] 1 [2] none).1 (by decide)⟩

theorem reachable_chain (d : IndexingData) (h : Reachable d) :
    List.Chain' (fun a b => a ≤ b) d.linePosition := by
  induction h with
  | init => simp [clearData]
  | add d block len lp enc hr hchain hhead ih =>
    show List.Chain' _ (d.linePosition ++ lp)
    refine List.chain'_append.mpr ⟨ih, hchain, ?_⟩
    intro x hx y hy
    simp only [Option.mem_def] at hx hy
    have hxl : getSize d = x := by
      unfold getSize
      rw [List.getLastD_eq_getLast?, hx]
      rfl
    have hyl : lp.headD (getSize d) = y := by
      cases lp with
      | nil => simp at hy
      | cons z t =>
        simp only [List.head?_cons, Option.some.injEq] at hy
        simpa using hy
    rw [← hxl]
    rw [← hyl]
    exact hhead
  | force d c hr ih => exact ih
  | setGuess d c hr ih => exact ih

/-- C6: in every state reachable through the store's operations the
line-position array is monotonically non-decreasing. -/
theorem reachable_monotone (d : IndexingData) (h : Reachable d) :
    ∀ i, i + 1 < getNbLines d → getPosForLine d i ≤ getPosForLine d (i + 1) := by
  intro i hi
  have hc := reachable_chain d h
  rw [List.chain'_iff_get] at hc
  unfold getNbLines at hi
  unfold getPosForLine
  have h1 : i < d.linePosition.length := by omega
  have h2 : i + 1 < d.linePosition.length := by omega
  rw [List.getD_eq_getElem?_getD, List.getD_eq_getElem?_getD,
    List.getElem?_eq_getElem h1, List.getElem?_eq_getElem h2]
  simp only [Option.getD_some]
  have hr := hc i (by omega)
  simpa [List.get_eq_getElem] using hr

theorem reachable_monotone_witness :
    0 + 1 < getNbLines (addAll clearData [10, 10] 2 [1, 2] none) ∧
    getPosForLine (addAll clearData [10, 10] 2 [1, 2] none) 0 ≤
      getPosForLine (addAll clearData [10, 10] 2 [1, 2] none) (0 + 1) :=
  ⟨by decide,
    reachable_monotone (addAll clearData [10, 10] 2 [1, 2] none)
      (Reachable.add clearData [10, 10] 2 [1, 2] none Reachable.init
        (List.chain'_cons.mpr ⟨by omega, List.chain'_singleton 2⟩) (by decide))
      0 (by decide)⟩

/-- C8: the check-file-changes operation leaves the indexing data
unchanged; every accessor reads the same before and after. -/
theorem check_file_changes_frame (file : List Byte) (d : IndexingData) :
    (checkFileChangesOp file d).2 = d ∧
    getSize (checkFileChangesOp file d).2 = getSize d ∧
    getNbLines (checkFileChangesOp file d).2 = getNbLines d ∧
    getMaxLength (checkFileChangesOp file d).2 = getMaxLength d ∧
    getHash (checkFileChangesOp file d).2 = getHash d ∧
    (∀ i, getPosForLine (checkFileChangesOp file d).2 i = getPosForLine d i) ∧
    getEncodingGuess (checkFileChangesOp file d).2 = getEncodingGuess d ∧
    getForcedEncoding (checkFileChangesOp file d).2 = getForcedEncoding d :=
  ⟨rfl, rfl, rfl, rfl, rfl, fun _ => rfl, rfl, rfl⟩

/-- C9: after a full index of an empty file the store has zero lines, zero
size and the system-default encoding guess; a nonexistent attached path
reads as an empty file and yields the same. -/
theorem full_index_empty_file (bs : Nat) (hb : 0 < bs)
    (fileSystem : String → Option (List Byte)) (path : String) (d0 : IndexingData)
    (hmiss : fileSystem path = none) :
    (getNbLines (fullIndexOp bs none ([] : List Byte) none d0).2 = 0 ∧
      getSize (fullIndexOp bs none ([] : List Byte) none d0).2 = 0 ∧
      getEncodingGuess (fullIndexOp bs none ([] : List Byte) none d0).2 =
        some Codec.systemDefault) ∧
    (getNbLines (fullIndexOp bs none (readFileBytes fileSystem path) none d0).2 = 0 ∧
      getSize (fullIndexOp bs none (readFileBytes fileSystem path) none d0).2 = 0 ∧
      getEncodingGuess (fullIndexOp bs none (readFileBytes fileSystem path) none d0).2 =
        some Codec.systemDefault) := by
  have hread : readFileBytes fileSystem path = ([] : List Byte) := by
    unfold readFileBytes
    rw [hmiss]
    rfl
  rw [hread, fullIndexOp_none_spec bs hb ([] : List Byte) d0]
  constructor <;>
    exact ⟨rfl, rfl, by simp [getEncodingGuess, guessEncoding, bomCodec]⟩

theorem full_index_empty_file_witness :
    0 < 1 ∧
    getSize (fullIndexOp 1 none (readFileBytes (fun _ => none) "log.txt") none clearData).2 =
      0 :=
  ⟨by decide,
    ((full_index_empty_file 1 (by decide) (fun _ => none) "log.txt" clearData rfl).2).2.1⟩

theorem addRecent_length_le (fs : List String) (t : String) :
    (addRecent fs t).length ≤ MAX_NUMBER_OF_FILES := by
  unfold addRecent
  rw [List.length_take]
  exact Nat.min_le_left _ _

/-- C10: after any sequence of addRecent calls the recent list holds the
latest added name first and never more than MAX_NUMBER_OF_FILES entries;
adding a new name to a full list evicts the oldest entry. -/
theorem recent_files_invariant :
    (∀ texts : List String,
      (texts.foldl addRecent []).length ≤ MAX_NUMBER_OF_FILES) ∧
    (∀ (fs : List String) (t : String), (addRecent fs t).head? = some t) ∧
    (∀ (fs : List String) (t : String), fs.length = MAX_NUMBER_OF_FILES → t ∉ fs →
      addRecent fs t = t :: fs.dropLast) := by
  refine ⟨?_, ?_, ?_⟩
  · have haux : ∀ (ts : List String) (fs : List String), fs.length ≤ MAX_NUMBER_OF_FILES →
        (ts.foldl addRecent fs).length ≤ MAX_NUMBER_OF_FILES := by
      intro ts
      induction ts with
      | nil => intro fs hfs; exact hfs
      | cons t ts ih =>
        intro fs hfs
        exact ih (addRecent fs t) (addRecent_length_le fs t)
    intro texts
    exact haux texts [] (by simp [MAX_NUMBER_OF_FILES])
  · intro fs t
    rfl
  · intro fs t hlen hmem
    unfold addRecent
    have hfilt : fs.filter (fun f => !(f == t)) = fs := by
      rw [List.filter_eq_self]
      intro a ha
      have hne : a ≠ t := fun heq => hmem (heq ▸ ha)
      simp [hne]
    rw [hfilt]
    show (t :: fs).take (9 + 1) = t :: fs.dropLast
    rw [List.take_succ_cons, List.dropLast_eq_take, hlen]
    simp [MAX_NUMBER_OF_FILES]

theorem recent_files_invariant_witness :
    List.length ["a", "b", "c", "d", "e", "f", "g", "h", "i", "j"] = MAX_NUMBER_OF_FILES ∧
    "k" ∉ ["a", "b", "c", "d", "e", "f", "g", "h", "i", "j"] ∧
    addRecent ["a", "b", "c", "d", "e", "f", "g", "h", "i", "j"] "k" =
      "k" :: List.dropLast ["a", "b", "c", "d", "e", "f", "g", "h", "i", "j"] :=
  ⟨by decide, by decide,
    recent_files_invariant.2.2 ["a", "b", "c", "d", "e", "f", "g", "h", "i", "j"] "k"
      (by decide) (by decide)⟩

/-- C7 counterexample: for the file "a" (no trailing newline) and appended
suffix "\n", a full index followed by a partial index of the extended file
differs from a single full index of the extended file: the partial pass
re-reads the unterminated tail from the last line end, so the tail bytes
are fed to the hash twice. -/
theorem full_then_partial_counterexample :
    (partialIndexOp 4 none [97, 10] (fullIndexOp 4 none [97] none clearData).2).2 ≠
      (fullIndexOp 4 none [97, 10] none clearData).2 := by decide

/-- C7 (amended): for every file F that ends with a newline byte and every
appended suffix, a full index of F followed by a partial index of the
extended file yields the same final indexing-data state (line offsets,
size, max length, hash, encodings) as a single full index of the extended
file. -/
theorem full_then_partial_eq_full (bs : Nat) (hb : 0 < bs) (F S : List Byte)
    (hF : F.getLast? = some newlineByte) (d0 : IndexingData) :
    (partialIndexOp bs none (F ++ S) (fullIndexOp bs none F none d0).2).2 =
      (fullIndexOp bs none (F ++ S) none d0).2 := by
  rw [fullIndexOp_none_spec bs hb F d0, fullIndexOp_none_spec bs hb (F ++ S) d0]
  dsimp only
  have hsize : getSize
      { linePosition := lineEnds F 0
        maxLength := maxTermLen F 0
        hashSize := (F.take hashBound).length
        hashDigest := F.take hashBound
        encodingGuess := some (guessEncoding (F.take bs))
        encodingForced := none } = F.length := by
    show (lineEnds F 0).getLastD 0 = F.length
    rw [List.getLastD_eq_getLast?, lineEnds_getLast F 0 hF]
    simp
  by_cases hS : S = []
  · subst hS
    rw [List.append_nil]
    unfold partialIndexOp
    rw [hsize]
    simp
  · have hS' : 0 < S.length := List.length_pos.mpr hS
    unfold partialIndexOp
    rw [hsize]
    rw [if_neg (by simp only [List.length_append]; omega),
      if_neg (by simp only [List.length_append]; omega)]
    dsimp only
    rw [doIndex_none_spec bs hb]
    have hdrop : (F ++ S).drop F.length = S := List.drop_left F S
    rw [hdrop]
    dsimp only
    simp only [List.isEmpty_eq_true, hS, if_false, IndexingData.mk.injEq]
    refine ⟨?_, ?_, ?_, ?_, ?_, trivial⟩
    · rw [lineEnds_append F S 0]
      simp
    · rw [maxTermLen_append F S 0, tailRunLen_zero_of_last_newline F 0 hF]
    · have hc := congrArg List.length (take_chunk_cascade hashBound 0 F S)
      simp only [Nat.sub_zero, Nat.zero_add, List.length_append] at hc
      omega
    · have hc := take_chunk_cascade hashBound 0 F S
      simp only [Nat.sub_zero, Nat.zero_add] at hc
      exact hc
    · simp only [partialEnc, getEncodingGuess]
      show some ((some (guessEncoding (F.take bs))).getD _) = _
      rw [Option.getD_some, guessEncoding_take_stable bs F S hF]

theorem full_then_partial_eq_full_witness :
    (0 < 2 ∧ List.getLast? [104, 101, 108, 108, 111, 10] = some newlineByte) ∧
    (partialIndexOp 2 none ([104, 101, 108, 108, 111, 10] ++ [119, 111, 114, 108, 100, 10])
        (fullIndexOp 2 none [104, 101, 108, 108, 111, 10] none clearData).2).2 =
      (fullIndexOp 2 none ([104, 101, 108, 108, 111, 10] ++ [119, 111, 114, 108, 100, 10])
        none clearData).2 :=
  ⟨⟨by decide, by decide⟩,
    full_then_partial_eq_full 2 (by decide) [104, 101, 108, 108, 111, 10]
      [119, 111, 114, 108, 100, 10] (by decide) clearData⟩
